import Mathlib

/-!
Verification of the aggregation, version-ordering and freshness-classification
engine of apt-webindex (src/apt-webindex.py, with src/index.py as an earlier
draft of the same per-package loop).

The Python pipeline is embedded shallowly: package records become a `Record`
structure, the per-package selection loop of `render_dist_html` becomes pure
list functions, `get_time_info` becomes a function on an integer time delta,
and the Debian version comparison `apt_pkg.version_compare` (an external
library) is modelled from the specification of Debian version ordering.
Python's `sorted` (a stable comparison sort returning a sorted permutation)
is embedded as `List.insertionSort` over the corresponding decidable relation.
-/

/-! ### Generic facts about `Ordering` and three-way comparators -/

theorem ordThen_swap (o p : Ordering) : (o.then p).swap = o.swap.then p.swap := by
  cases o <;> rfl

theorem ordThen_eq_eq {o p : Ordering} : o.then p = .eq ↔ o = .eq ∧ p = .eq := by
  cases o <;> simp [Ordering.then]

theorem ordThen_eq_gt {o p : Ordering} : o.then p = .gt ↔ o = .gt ∨ (o = .eq ∧ p = .gt) := by
  cases o <;> simp [Ordering.then]

theorem ordThen_eq_lt {o p : Ordering} : o.then p = .lt ↔ o = .lt ∨ (o = .eq ∧ p = .lt) := by
  cases o <;> simp [Ordering.then]

theorem ordThen_ne_gt {o p : Ordering} : o.then p ≠ .gt ↔ o = .lt ∨ (o = .eq ∧ p ≠ .gt) := by
  cases o <;> simp [Ordering.then]

theorem eq_of_swap_self {o : Ordering} (h : o = o.swap) : o = .eq := by
  cases o <;> simp [Ordering.swap] at h ⊢

/-- A lawful three-way comparator: swapping the arguments swaps the outcome,
comparison is transitive at the `≤` level, and `eq`-related elements compare
the same way against everything else. -/
structure IsLawfulCmp {α : Type} (c : α → α → Ordering) : Prop where
  symm : ∀ x y, c x y = (c y x).swap
  le_trans : ∀ ⦃x y z⦄, c x y ≠ .gt → c y z ≠ .gt → c x z ≠ .gt
  congr_left : ∀ ⦃x y⦄ (z), c x y = .eq → c x z = c y z

namespace IsLawfulCmp

variable {α : Type} {c : α → α → Ordering}

theorem refl (h : IsLawfulCmp c) (x : α) : c x x = .eq :=
  eq_of_swap_self (h.symm x x)

theorem eq_symm (h : IsLawfulCmp c) {x y : α} (hxy : c x y = .eq) : c y x = .eq := by
  have := h.symm y x
  rw [hxy] at this
  exact this

theorem gt_iff_lt (h : IsLawfulCmp c) {x y : α} : c x y = .gt ↔ c y x = .lt := by
  rw [h.symm x y]
  cases c y x <;> simp [Ordering.swap]

theorem congr_right (h : IsLawfulCmp c) {y z : α} (x : α) (hyz : c y z = .eq) :
    c x y = c x z := by
  rw [h.symm x y, h.symm x z, h.congr_left x hyz]

theorem lt_trans (h : IsLawfulCmp c) {x y z : α}
    (h1 : c x y = .lt) (h2 : c y z = .lt) : c x z = .lt := by
  have hne : c x z ≠ .gt :=
    h.le_trans (by rw [h1]; intro hc; cases hc) (by rw [h2]; intro hc; cases hc)
  rcases heq : c x z with _ | _ | _
  · rfl
  · exfalso
    have := h.congr_left y heq
    rw [h1] at this
    have hzy : c z y = .gt := h.gt_iff_lt.mpr h2
    rw [hzy] at this
    cases this
  · exact absurd heq hne

theorem le_of_lt (_ : IsLawfulCmp c) {x y : α} (hxy : c x y = .lt) : c x y ≠ .gt := by
  rw [hxy]; intro hc; cases hc

theorem le_total (h : IsLawfulCmp c) (x y : α) : c x y ≠ .gt ∨ c y x ≠ .gt := by
  rcases heq : c x y with _ | _ | _
  · exact Or.inl (by simp [heq])
  · exact Or.inl (by simp [heq])
  · refine Or.inr ?_
    have hlt : c y x = .lt := h.gt_iff_lt.mp heq
    simp [hlt]

/-- Pulling a lawful comparator back along any key function keeps it lawful. -/
theorem pullback {β : Type} (h : IsLawfulCmp c) (k : β → α) :
    IsLawfulCmp (fun x y => c (k x) (k y)) where
  symm x y := h.symm (k x) (k y)
  le_trans _ _ _ h1 h2 := h.le_trans h1 h2
  congr_left _ _ z h1 := h.congr_left (k z) h1

/-- Lexicographic composition of two lawful comparators on the same type. -/
theorem lex {d : α → α → Ordering} (hc : IsLawfulCmp c) (hd : IsLawfulCmp d) :
    IsLawfulCmp (fun x y => (c x y).then (d x y)) where
  symm x y := by rw [hc.symm x y, hd.symm x y, ordThen_swap]
  le_trans x y z h1 h2 := by
    rw [ordThen_ne_gt] at h1 h2 ⊢
    rcases h1 with h1 | ⟨h1, h1d⟩
    · rcases h2 with h2 | ⟨h2, _⟩
      · exact Or.inl (hc.lt_trans h1 h2)
      · exact Or.inl (by rw [← hc.congr_right x h2]; exact h1)
    · rcases h2 with h2 | ⟨h2, h2d⟩
      · exact Or.inl (by rw [hc.congr_left z h1]; exact h2)
      · refine Or.inr ⟨?_, ?_⟩
        · rw [hc.congr_left z h1]; exact h2
        · exact hd.le_trans h1d h2d
  congr_left x y z h1 := by
    rw [ordThen_eq_eq] at h1
    rw [hc.congr_left z h1.1, hd.congr_left z h1.2]

end IsLawfulCmp

/-! ### Concrete base comparators -/

def cmpNat (m n : Nat) : Ordering :=
  if m < n then .lt else if m = n then .eq else .gt

def cmpInt (m n : Int) : Ordering :=
  if m < n then .lt else if m = n then .eq else .gt

def cmpChar (a b : Char) : Ordering := cmpNat a.toNat b.toNat

theorem cmpNat_lawful : IsLawfulCmp cmpNat where
  symm x y := by unfold cmpNat; split_ifs <;> simp [Ordering.swap] <;> omega
  le_trans x y z h1 h2 := by
    unfold cmpNat at h1 h2 ⊢; split_ifs at h1 h2 ⊢ <;> simp_all <;> omega
  congr_left x y z h1 := by
    unfold cmpNat at h1 ⊢; split_ifs at h1 ⊢ <;> simp_all <;> omega

theorem cmpInt_lawful : IsLawfulCmp cmpInt where
  symm x y := by unfold cmpInt; split_ifs <;> simp [Ordering.swap] <;> omega
  le_trans x y z h1 h2 := by
    unfold cmpInt at h1 h2 ⊢; split_ifs at h1 h2 ⊢ <;> simp_all <;> omega
  congr_left x y z h1 := by
    unfold cmpInt at h1 ⊢; split_ifs at h1 ⊢ <;> simp_all <;> omega

theorem cmpChar_lawful : IsLawfulCmp cmpChar :=
  cmpNat_lawful.pullback Char.toNat

theorem cmpNat_eq_iff {m n : Nat} : cmpNat m n = .eq ↔ m = n := by
  unfold cmpNat; split_ifs <;> simp_all <;> omega

theorem cmpInt_eq_iff {m n : Int} : cmpInt m n = .eq ↔ m = n := by
  unfold cmpInt; split_ifs <;> simp_all <;> omega

theorem cmpChar_eq_iff {a b : Char} : cmpChar a b = .eq ↔ a = b := by
  unfold cmpChar
  rw [cmpNat_eq_iff]
  exact ⟨fun h => Char.ext (UInt32.ext h), fun h => by rw [h]⟩

/-! ### Plain lexicographic comparison of lists -/

def lexCmp {α : Type} (c : α → α → Ordering) : List α → List α → Ordering
  | [], [] => .eq
  | [], _ :: _ => .lt
  | _ :: _, [] => .gt
  | x :: xs, y :: ys => (c x y).then (lexCmp c xs ys)

namespace lexCmp

variable {α : Type} {c : α → α → Ordering}

theorem symm (h : IsLawfulCmp c) : ∀ xs ys : List α, lexCmp c xs ys = (lexCmp c ys xs).swap
  | [], [] => rfl
  | [], _ :: _ => rfl
  | _ :: _, [] => rfl
  | x :: xs, y :: ys => by
    simp only [lexCmp]
    rw [h.symm x y, symm h xs ys, ordThen_swap]

theorem le_trans (h : IsLawfulCmp c) :
    ∀ xs ys zs : List α,
      lexCmp c xs ys ≠ .gt → lexCmp c ys zs ≠ .gt → lexCmp c xs zs ≠ .gt
  | [], ys, zs, _, _ => by cases zs <;> simp [lexCmp]
  | _ :: _, [], _, h1, _ => absurd rfl h1
  | _ :: _, _ :: _, [], _, h2 => absurd rfl h2
  | x :: xs, y :: ys, z :: zs, h1, h2 => by
    simp only [lexCmp] at h1 h2 ⊢
    rw [ordThen_ne_gt] at h1 h2 ⊢
    rcases h1 with h1 | ⟨h1, h1t⟩
    · rcases h2 with h2 | ⟨h2, _⟩
      · exact Or.inl (h.lt_trans h1 h2)
      · exact Or.inl (by rw [← h.congr_right x h2]; exact h1)
    · rcases h2 with h2 | ⟨h2, h2t⟩
      · exact Or.inl (by rw [h.congr_left z h1]; exact h2)
      · exact Or.inr ⟨by rw [h.congr_left z h1]; exact h2, le_trans h xs ys zs h1t h2t⟩

theorem congr_left (h : IsLawfulCmp c) :
    ∀ xs ys zs : List α, lexCmp c xs ys = .eq → lexCmp c xs zs = lexCmp c ys zs
  | [], [], _, _ => rfl
  | [], _ :: _, _, h1 => by cases h1
  | _ :: _, [], _, h1 => by cases h1
  | x :: xs, y :: ys, zs, h1 => by
    simp only [lexCmp] at h1
    rw [ordThen_eq_eq] at h1
    cases zs with
    | nil => rfl
    | cons z zs =>
      simp only [lexCmp]
      rw [h.congr_left z h1.1, congr_left h xs ys zs h1.2]

theorem lawful_lexCmp (h : IsLawfulCmp c) : IsLawfulCmp (lexCmp c) where
  symm := symm h
  le_trans _ _ _ := le_trans h _ _ _
  congr_left _ _ z := congr_left h _ _ z

theorem eq_iff (h : ∀ {a b : α}, c a b = .eq ↔ a = b) :
    ∀ {xs ys : List α}, lexCmp c xs ys = .eq ↔ xs = ys
  | [], [] => by simp [lexCmp]
  | [], _ :: _ => by simp [lexCmp]
  | _ :: _, [] => by simp [lexCmp]
  | x :: xs, y :: ys => by
    simp only [lexCmp, ordThen_eq_eq, h, eq_iff h, List.cons.injEq]

end lexCmp

/-! ### Zero-padded lexicographic comparison

The Debian sub-algorithm compares alternating character/digit runs; when one
version string runs out of runs (or a run runs out of characters) the missing
part is treated as a padding element. `padCmp` captures this: it is the
lexicographic comparison where the shorter list is padded with `pad`. -/

def padCmpNil {α : Type} (c : α → α → Ordering) (pad : α) : List α → Ordering
  | [] => .eq
  | y :: ys => (c pad y).then (padCmpNil c pad ys)

def padCmp {α : Type} (c : α → α → Ordering) (pad : α) : List α → List α → Ordering
  | [], ys => padCmpNil c pad ys
  | x :: xs, [] => (c x pad).then (padCmp c pad xs [])
  | x :: xs, y :: ys => (c x y).then (padCmp c pad xs ys)

/-- Pad a list with copies of `pad` up to length `n`. -/
def padTo {α : Type} (pad : α) (n : Nat) (l : List α) : List α :=
  l ++ List.replicate (n - l.length) pad

namespace padCmp

variable {α : Type} {c : α → α → Ordering} {pad : α}

theorem replicate_self (h : IsLawfulCmp c) (n : Nat) :
    lexCmp c (List.replicate n pad) (List.replicate n pad) = .eq := by
  induction n with
  | zero => rfl
  | succ n ih =>
    simp only [List.replicate, lexCmp, ih, h.refl pad]
    rfl

theorem padTo_nil {n : Nat} : padTo pad n ([] : List α) = List.replicate n pad := by
  simp [padTo]

theorem padTo_cons {n : Nat} {x : α} {xs : List α} (hn : xs.length + 1 ≤ n + 1) :
    padTo pad (n + 1) (x :: xs) = x :: padTo pad n xs := by
  simp [padTo, List.length_cons]

theorem nil_left (ys : List α) : padCmp c pad [] ys = padCmpNil c pad ys := rfl

/-- On lists that fit below the padding bound, `padCmp` is the plain
lexicographic comparison of the padded lists. -/
theorem eq_lexCmp_padTo (h : IsLawfulCmp c) :
    ∀ (n : Nat) (xs ys : List α), xs.length ≤ n → ys.length ≤ n →
      padCmp c pad xs ys = lexCmp c (padTo pad n xs) (padTo pad n ys)
  | n, [], [], _, _ => by
    rw [padTo_nil, replicate_self h]
    rfl
  | 0, [], y :: ys, _, hy => by simp at hy
  | 0, x :: xs, _, hx, _ => by simp at hx
  | n + 1, [], y :: ys, _, hy => by
    rw [padTo_nil, padTo_cons hy, List.replicate]
    show (c pad y).then (padCmpNil c pad ys) = (c pad y).then _
    rw [← nil_left, eq_lexCmp_padTo h n [] ys (by simp) (by simpa using hy), padTo_nil]
  | n + 1, x :: xs, [], hx, _ => by
    rw [padTo_cons hx, padTo_nil, List.replicate]
    show (c x pad).then (padCmp c pad xs []) = (c x pad).then _
    rw [eq_lexCmp_padTo h n xs [] (by simpa using hx) (by simp), padTo_nil]
  | n + 1, x :: xs, y :: ys, hx, hy => by
    rw [padTo_cons hx, padTo_cons hy]
    show (c x y).then (padCmp c pad xs ys) = (c x y).then _
    rw [eq_lexCmp_padTo h n xs ys (by simpa using hx) (by simpa using hy)]

theorem lawful_padCmp (h : IsLawfulCmp c) : IsLawfulCmp (padCmp c pad) where
  symm xs ys := by
    rw [eq_lexCmp_padTo h (max xs.length ys.length) xs ys (Nat.le_max_left _ _)
        (Nat.le_max_right _ _),
      eq_lexCmp_padTo h (max xs.length ys.length) ys xs (Nat.le_max_right _ _)
        (Nat.le_max_left _ _)]
    exact (lexCmp.lawful_lexCmp h).symm _ _
  le_trans xs ys zs h1 h2 := by
    set n := max xs.length (max ys.length zs.length) with hn
    have hx : xs.length ≤ n := Nat.le_max_left _ _
    have hy : ys.length ≤ n := le_trans (Nat.le_max_left _ _) (Nat.le_max_right _ _)
    have hz : zs.length ≤ n := le_trans (Nat.le_max_right _ _) (Nat.le_max_right _ _)
    rw [eq_lexCmp_padTo h n xs ys hx hy] at h1
    rw [eq_lexCmp_padTo h n ys zs hy hz] at h2
    rw [eq_lexCmp_padTo h n xs zs hx hz]
    exact (lexCmp.lawful_lexCmp h).le_trans h1 h2
  congr_left xs ys zs h1 := by
    set n := max xs.length (max ys.length zs.length) with hn
    have hx : xs.length ≤ n := Nat.le_max_left _ _
    have hy : ys.length ≤ n := le_trans (Nat.le_max_left _ _) (Nat.le_max_right _ _)
    have hz : zs.length ≤ n := le_trans (Nat.le_max_right _ _) (Nat.le_max_right _ _)
    rw [eq_lexCmp_padTo h n xs ys hx hy] at h1
    rw [eq_lexCmp_padTo h n xs zs hx hz, eq_lexCmp_padTo h n ys zs hy hz]
    exact (lexCmp.lawful_lexCmp h).congr_left _ h1

end padCmp

/-! ### The Debian version comparator

Modelled from the spec: `apt_pkg.version_compare` is an external library
(python-apt), not part of this repository; section 4.1 of the specification
describes the algorithm it implements (split into epoch, upstream and
revision; numeric epoch comparison; alternating non-digit / digit runs with
tilde-before-end-of-string ordering and numeric digit runs ignoring leading
zeros). The definitions below follow that description. -/

/-- Modelled from the spec: the ordering code of one character inside a
non-digit run. Letters sort before non-letters, a tilde sorts below
everything including end-of-run, and end-of-run (code `0`) sorts below every
other character. Digits never occur inside a non-digit run. -/
def charOrd (c : Char) : Int :=
  if c.isAlpha then (c.toNat : Int)
  else if c = '~' then -1
  else (c.toNat : Int) + 256

/-- Modelled from the spec: the numeric value of a digit run (leading zeros
are ignored because the run is read as an unsigned integer). -/
def digitVal (l : List Char) : Nat :=
  l.foldl (fun n c => n * 10 + (c.toNat - 48)) 0

theorem tokenize_measure (c : Char) (cs : List Char) :
    (List.dropWhile (fun x => x.isDigit)
      (List.dropWhile (fun x => !x.isDigit) (c :: cs))).length < (c :: cs).length := by
  have hle : ∀ (p : Char → Bool) (l : List Char), (List.dropWhile p l).length ≤ l.length :=
    fun p l => (List.dropWhile_sublist p).length_le
  by_cases hc : c.isDigit
  · have h1 : List.dropWhile (fun x => !x.isDigit) (c :: cs) = c :: cs := by
      rw [List.dropWhile_cons, if_neg (by simp [hc])]
    rw [h1, List.dropWhile_cons, if_pos (by simp [hc])]
    exact Nat.lt_succ_of_le (hle _ _)
  · have h1 : List.dropWhile (fun x => !x.isDigit) (c :: cs) =
        List.dropWhile (fun x => !x.isDigit) cs := by
      rw [List.dropWhile_cons, if_pos (by simp [hc])]
    rw [h1]
    exact Nat.lt_succ_of_le (le_trans (hle _ _) (hle _ _))

/-- Modelled from the spec: cut a version fragment into its alternating runs,
each run contributing a pair of the non-digit run (as ordering codes) and the
numeric value of the following digit run. The fuel parameter makes the
recursion structural (and hence kernel-computable); each step strictly
shortens the list (`tokenize_measure`), so `tokenizeAux l.length l` runs to
completion, and `tokenizeAux_congr` shows any sufficient fuel gives the same
answer. -/
def tokenizeAux : Nat → List Char → List (List Int × Nat)
  | _, [] => []
  | 0, _ :: _ => []
  | fuel + 1, c :: cs =>
    ((List.takeWhile (fun x => !x.isDigit) (c :: cs)).map charOrd,
      digitVal (List.takeWhile (fun x => x.isDigit)
        (List.dropWhile (fun x => !x.isDigit) (c :: cs)))) ::
      tokenizeAux fuel (List.dropWhile (fun x => x.isDigit)
        (List.dropWhile (fun x => !x.isDigit) (c :: cs)))

theorem tokenizeAux_nil (f : Nat) : tokenizeAux f [] = [] := by
  cases f <;> rfl

theorem tokenizeAux_congr :
    ∀ (f1 f2 : Nat) (l : List Char), l.length ≤ f1 → l.length ≤ f2 →
      tokenizeAux f1 l = tokenizeAux f2 l
  | f1, f2, [], _, _ => by rw [tokenizeAux_nil, tokenizeAux_nil]
  | 0, _, c :: cs, h1, _ => by simp at h1
  | _, 0, c :: cs, _, h2 => by simp at h2
  | f1 + 1, f2 + 1, c :: cs, h1, h2 => by
    simp only [tokenizeAux, List.cons.injEq, true_and]
    have hm := tokenize_measure c cs
    exact tokenizeAux_congr f1 f2 _ (by omega) (by omega)

def tokenize (l : List Char) : List (List Int × Nat) := tokenizeAux l.length l

/-- Comparison of one alternating run pair: non-digit runs first (padded with
the end-of-run code `0`), then the digit runs numerically. -/
def runCmp (p q : List Int × Nat) : Ordering :=
  (padCmp cmpInt 0 p.1 q.1).then (cmpNat p.2 q.2)

/-- Comparison of the run lists of two version fragments: an exhausted
fragment is padded with the empty run. -/
def fragCmp (xs ys : List (List Int × Nat)) : Ordering :=
  padCmp runCmp ([], 0) xs ys

theorem runCmp_lawful : IsLawfulCmp runCmp := by
  have h1 := (@padCmp.lawful_padCmp Int cmpInt 0 cmpInt_lawful).pullback
    (fun p : List Int × Nat => p.1)
  have h2 := cmpNat_lawful.pullback (fun p : List Int × Nat => p.2)
  exact h1.lex h2

theorem fragCmp_lawful : IsLawfulCmp fragCmp :=
  padCmp.lawful_padCmp runCmp_lawful

/-- Modelled from the spec: split `[epoch:]upstream[-revision]` into the
numeric epoch (missing epoch defaults to `0`), the upstream part and the
revision part (missing revision defaults to the empty string; the revision
starts after the last dash). -/
def debSplit (s : List Char) : Nat × List Char × List Char :=
  let epochPart := if s.contains ':' then
      (digitVal (List.takeWhile (fun c => c.isDigit) (List.takeWhile (fun c => c != ':') s)),
        (List.dropWhile (fun c => c != ':') s).tail)
    else (0, s)
  let rest := epochPart.2
  let rev := rest.reverse
  if rev.contains '-' then
    (epochPart.1, (List.dropWhile (fun c => c != '-') rev).tail.reverse,
      (List.takeWhile (fun c => c != '-') rev).reverse)
  else (epochPart.1, rest, [])

/-- The canonical comparison key of a version string: numeric epoch and the
run lists of the upstream and revision fragments. -/
def verKey (s : String) : Nat × List (List Int × Nat) × List (List Int × Nat) :=
  let t := debSplit s.data
  (t.1, tokenize t.2.1, tokenize t.2.2)

/-- Modelled from the spec: the Debian version comparison backing the sort,
standing in for the external `apt_pkg.version_compare`. Epochs are compared
numerically, then the upstream fragments, then the revision fragments. -/
def debCmp (a b : String) : Ordering :=
  (cmpNat (verKey a).1 (verKey b).1).then
    ((fragCmp (verKey a).2.1 (verKey b).2.1).then (fragCmp (verKey a).2.2 (verKey b).2.2))

theorem debCmp_lawful : IsLawfulCmp debCmp := by
  have h1 := cmpNat_lawful.pullback (fun s : String => (verKey s).1)
  have h2 := fragCmp_lawful.pullback (fun s : String => (verKey s).2.1)
  have h3 := fragCmp_lawful.pullback (fun s : String => (verKey s).2.2)
  exact h1.lex (h2.lex h3)

example : debCmp "2:1.0" "1:9.0" = .gt := by decide
example : debCmp "1.0~rc1" "1.0" = .lt := by decide
example : debCmp "1.0-2" "1.0-1" = .gt := by decide
example : debCmp "1.1" "1.0" = .gt := by decide
example : debCmp "1.0" "0.9" = .gt := by decide
example : debCmp "1.0" "1.00" = .eq := by decide
example : debCmp "1.0" "1.0" = .eq := by decide

/-! ### String comparison and ordering relations backing the sorts

Python compares strings (and tuples of strings) lexicographically by code
point; `strCmp` is that comparison. The pipeline sorts are embedded as
`List.insertionSort` over the relation `cmp a b ≠ gt`, i.e. a stable
comparison sort returning a sorted permutation, which is the contract of
Python's `sorted`. -/

def strCmp (a b : String) : Ordering := lexCmp cmpChar a.data b.data

theorem strCmp_lawful : IsLawfulCmp strCmp :=
  (lexCmp.lawful_lexCmp cmpChar_lawful).pullback String.data

theorem strCmp_eq_iff {a b : String} : strCmp a b = .eq ↔ a = b := by
  unfold strCmp
  rw [lexCmp.eq_iff (fun {x y} => cmpChar_eq_iff)]
  exact ⟨String.ext, fun h => by rw [h]⟩

/-- Comparison of `(actual_arch, filename)` pairs, Python tuple order. -/
def pairCmp (p q : String × String) : Ordering :=
  (strCmp p.1 q.1).then (strCmp p.2 q.2)

theorem pairCmp_lawful : IsLawfulCmp pairCmp :=
  (strCmp_lawful.pullback (fun p : String × String => p.1)).lex
    (strCmp_lawful.pullback (fun p : String × String => p.2))

theorem pairCmp_eq_iff {p q : String × String} : pairCmp p q = .eq ↔ p = q := by
  unfold pairCmp
  rw [ordThen_eq_eq, strCmp_eq_iff, strCmp_eq_iff]
  exact ⟨fun h => Prod.ext h.1 h.2, fun h => by rw [h]; exact ⟨rfl, rfl⟩⟩

/-! ### The record data model

`render_dist_html` stores one row `[source_arch, package, version,
actual_arch, filename]` per stanza. -/

structure Record where
  source_arch : String
  package : String
  version : String
  actual_arch : String
  filename : String
deriving DecidableEq, Inhabited

/-- Python sorts the raw five-element rows as lists of strings, i.e.
lexicographically field by field. -/
def recCmp (a b : Record) : Ordering :=
  (strCmp a.source_arch b.source_arch).then
    ((strCmp a.package b.package).then
      ((strCmp a.version b.version).then
        ((strCmp a.actual_arch b.actual_arch).then (strCmp a.filename b.filename))))

theorem recCmp_lawful : IsLawfulCmp recCmp := by
  have h1 := strCmp_lawful.pullback Record.source_arch
  have h2 := strCmp_lawful.pullback Record.package
  have h3 := strCmp_lawful.pullback Record.version
  have h4 := strCmp_lawful.pullback Record.actual_arch
  have h5 := strCmp_lawful.pullback Record.filename
  exact h1.lex (h2.lex (h3.lex (h4.lex h5)))

theorem recCmp_eq_iff {a b : Record} : recCmp a b = .eq ↔ a = b := by
  unfold recCmp
  rw [ordThen_eq_eq, ordThen_eq_eq, ordThen_eq_eq, ordThen_eq_eq,
    strCmp_eq_iff, strCmp_eq_iff, strCmp_eq_iff, strCmp_eq_iff, strCmp_eq_iff]
  constructor
  · rintro ⟨e1, e2, e3, e4, e5⟩
    cases a; cases b
    simp_all
  · intro h
    rw [h]
    exact ⟨rfl, rfl, rfl, rfl, rfl⟩

/-! Ordering relations (the `≤` of the respective comparators) together with
the typeclass facts `List.insertionSort` needs. -/

def strLe (a b : String) : Prop := strCmp a b ≠ .gt

def pairLe (p q : String × String) : Prop := pairCmp p q ≠ .gt

def recLe (a b : Record) : Prop := recCmp a b ≠ .gt

/-- Descending Debian version order (`reverse=True` in the Python sort). -/
def verGe (a b : String) : Prop := debCmp a b ≠ .lt

instance : DecidableRel strLe := fun a b =>
  inferInstanceAs (Decidable (strCmp a b ≠ .gt))

instance : DecidableRel pairLe := fun p q =>
  inferInstanceAs (Decidable (pairCmp p q ≠ .gt))

instance : DecidableRel recLe := fun a b =>
  inferInstanceAs (Decidable (recCmp a b ≠ .gt))

instance : DecidableRel verGe := fun a b =>
  inferInstanceAs (Decidable (debCmp a b ≠ .lt))

theorem lawful_antisymm {α : Type} {c : α → α → Ordering} (h : IsLawfulCmp c)
    (hiff : ∀ {x y : α}, c x y = .eq ↔ x = y) {a b : α}
    (h1 : c a b ≠ .gt) (h2 : c b a ≠ .gt) : a = b := by
  rcases hc : c a b with _ | _ | _
  · exact absurd (h.gt_iff_lt.mpr hc) h2
  · exact hiff.mp hc
  · exact absurd hc h1

instance : IsTotal String strLe := ⟨fun a b => strCmp_lawful.le_total a b⟩

instance : IsTrans String strLe :=
  ⟨fun a b c h1 h2 => by
    unfold strLe at h1 h2 ⊢
    exact strCmp_lawful.le_trans h1 h2⟩

instance : IsAntisymm String strLe :=
  ⟨fun a b h1 h2 => lawful_antisymm strCmp_lawful strCmp_eq_iff h1 h2⟩

instance : IsTotal (String × String) pairLe := ⟨fun p q => pairCmp_lawful.le_total p q⟩

instance : IsTrans (String × String) pairLe :=
  ⟨fun p q r h1 h2 => by
    unfold pairLe at h1 h2 ⊢
    exact pairCmp_lawful.le_trans h1 h2⟩

instance : IsAntisymm (String × String) pairLe :=
  ⟨fun p q h1 h2 => lawful_antisymm pairCmp_lawful pairCmp_eq_iff h1 h2⟩

instance : IsTotal Record recLe := ⟨fun a b => recCmp_lawful.le_total a b⟩

instance : IsTrans Record recLe :=
  ⟨fun a b c h1 h2 => by
    unfold recLe at h1 h2 ⊢
    exact recCmp_lawful.le_trans h1 h2⟩

instance : IsAntisymm Record recLe :=
  ⟨fun a b h1 h2 => lawful_antisymm recCmp_lawful recCmp_eq_iff h1 h2⟩

instance : IsTotal String verGe where
  total a b := by
    unfold verGe
    by_cases h : debCmp a b = .lt
    · refine Or.inr fun hlt => ?_
      have hg : debCmp a b = .gt := debCmp_lawful.gt_iff_lt.mpr hlt
      rw [h] at hg
      cases hg
    · exact Or.inl h

instance : IsTrans String verGe where
  trans a b c h1 h2 := by
    unfold verGe at h1 h2 ⊢
    intro hlt
    have h1g : debCmp b a ≠ .gt := fun hg => h1 (debCmp_lawful.gt_iff_lt.mp hg)
    have h2g : debCmp c b ≠ .gt := fun hg => h2 (debCmp_lawful.gt_iff_lt.mp hg)
    exact (debCmp_lawful.le_trans h2g h1g) (debCmp_lawful.gt_iff_lt.mpr hlt)

/-! ### The freshness classifier (`get_time_info`) -/

/-- Embedding of `get_time_info(diff)`: five tier rules tried in order, first
match wins. The Python string formats `'%d+ months ago' % (diff/(30*24*3600))`
truncate the quotient; every branch that formats a quotient only runs for a
positive `diff`, where truncation and floor division agree, so integer
division is the faithful embedding. -/
def get_time_info (diff : Int) : String × String :=
  if diff > 60 * 24 * 3600 then
    (toString (diff / (30 * 24 * 3600)) ++ "+ months ago", "hot1")
  else if diff > 2 * 24 * 3600 then
    (toString (diff / (1 * 24 * 3600)) ++ "+ days ago", "hot2")
  else if diff > 2 * 3600 then
    (toString (diff / (1 * 3600)) ++ "+ hours ago", "hot3")
  else if diff > 2 * 60 then
    (toString (diff / (1 * 60)) ++ "+ minutes ago", "hot4")
  else
    (toString diff ++ " seconds ago", "hot5")

/-! ### The per-distribution selection pipeline (`render_dist_html`) -/

/-- Embedding of `re.sub(r'/[^/]+$', '', s)`: strip the final `/`-delimited
segment, but only when the string ends in a nonempty run of non-slash
characters preceded by a slash. -/
def dirname (s : String) : String :=
  let rev := s.data.reverse
  let seg := rev.takeWhile (fun c => c != '/')
  if seg.length = 0 ∨ rev.length = seg.length then s
  else String.mk ((rev.drop (seg.length + 1)).reverse)

/-- Embedding of `sorted(list(set(row[1] for row in data)))`. -/
def packagesOf (data : List Record) : List String :=
  List.insertionSort strLe (data.map Record.package).dedup

/-- Embedding of `sorted(list(set(row[2] for row in data if row[1] ==
package)), reverse=True, key=cmp_to_key(version_compare))`: the distinct
versions of the package's records, sorted descending under `debCmp`. -/
def versionsOf (data : List Record) (package : String) : List String :=
  List.insertionSort verGe
    ((data.filter (fun r => r.package == package)).map Record.version).dedup

/-- Embedding of `newest_version = versions[0]`. -/
def newest_version (data : List Record) (package : String) : String :=
  (versionsOf data package).headI

/-- Embedding of `older_versions = ' | '.join(versions[1:])`. -/
def older_versions (data : List Record) (package : String) : String :=
  String.intercalate " | " (versionsOf data package).tail

/-- Embedding of `newest_items = sorted([row for row in data if row[1] ==
package and row[2] == newest_version])`. -/
def newest_items (data : List Record) (package : String) : List Record :=
  List.insertionSort recLe
    (data.filter (fun r => r.package == package && r.version == newest_version data package))

/-- Embedding of `pool_dir = re.sub(r'/[^/]+$', '', newest_items[0][4])`. -/
def pool_dir (data : List Record) (package : String) : String :=
  dirname (newest_items data package).headI.filename

/-- Embedding of `newest_debs = sorted(list(set((row[3], row[4]) for row in
newest_items)))`. -/
def newest_debs (data : List Record) (package : String) : List (String × String) :=
  List.insertionSort pairLe
    (((newest_items data package).map (fun r => (r.actual_arch, r.filename))).dedup)

/-- The delayed-build test: `len(newest_debs) == 1 and newest_debs[0][0] ==
'amd64'`. -/
def delayedCond (debs : List (String × String)) : Bool :=
  debs.length == 1 && debs.headI.1 == "amd64"

/-- One table row of the presentation model. `file_ts` is the raw
modification timestamp shown (formatted) inside the tooltip next to
`diff_desc`; the HTML/strftime rendering itself is external presentation
glue. -/
structure Row where
  package : String
  pool_dir : String
  newest_version : String
  diff_desc : String
  time_color : String
  file_ts : Int
  delayed_build : String
  newest_debs : List (String × String)
  older_versions : String
deriving DecidableEq

/-- The per-package body of the loop in `render_dist_html`: `now` is the
timestamp captured before the loop and `mtime` is the external
`os.stat(...).st_mtime` collaborator. -/
def renderRow (data : List Record) (now : Int) (mtime : String → Int)
    (package : String) : Row :=
  let items := newest_items data package
  let debs := newest_debs data package
  let file_ts := mtime items.headI.filename
  let info := get_time_info (now - file_ts)
  { package := package
    pool_dir := pool_dir data package
    newest_version := newest_version data package
    diff_desc := info.1
    time_color := info.2
    file_ts := file_ts
    delayed_build :=
      if delayedCond debs then info.2 ++ " " ++ info.2 ++ "-delayed" else ""
    newest_debs := debs
    older_versions := older_versions data package }

/-- Embedding of `render_dist_html`: one row per package name, in ascending
name order, all sharing the single `now_ts` captured before the loop. -/
def render_dist (data : List Record) (now : Int) (mtime : String → Int) : List Row :=
  (packagesOf data).map (renderRow data now mtime)

/-- Ordering of distribution entries by name (`dists = sorted(os.listdir(...))`). -/
def distLe (a b : String × List Record) : Prop := strCmp a.1 b.1 ≠ .gt

instance : DecidableRel distLe := fun a b =>
  inferInstanceAs (Decidable (strCmp a.1 b.1 ≠ .gt))

/-- Embedding of the `__main__` loop: the distributions are processed in
sorted name order, and the `i`-th call of `render_dist_html` captures the
`i`-th sample of the wall clock (`time.time()` is called exactly once inside
each `render_dist_html` invocation, before that distribution's package loop).
The external clock is embedded as the stream of its successive samples. -/
def runModel (dists : List (String × List Record)) (clock : Nat → Int)
    (mtime : String → Int) : List (String × List Row) :=
  (List.insertionSort distLe dists).enum.map
    (fun p => (p.2.1, render_dist p.2.2 (clock p.1) mtime))

/-! ### Loading stanzas (`for stanza in tagfile: ... data.append(...)`) -/

/-- One stanza of a Packages index: named fields, looked up by key. -/
def Stanza : Type := List (String × String)

/-- Field lookup in a stanza (first binding wins, `stanza['Package']`). -/
def fieldOf (s : Stanza) (key : String) : Option String :=
  match s with
  | [] => none
  | kv :: rest => if kv.1 == key then some kv.2 else fieldOf rest key

/-- Fetch a required field; a missing field raises (`KeyError` in Python),
embedded as `Except.error` carrying the missing key. -/
def requireField (s : Stanza) (key : String) : Except String String :=
  match fieldOf s key with
  | some v => .ok v
  | none => .error key

/-- Embedding of the loop body `fp = stanza['Package'] ... data.append([arch,
fp, fv, fa, ff])`: the four lookups happen in order and the record is built
only if all four succeed; the first missing key raises. -/
def loadStanza (arch : String) (s : Stanza) : Except String Record :=
  match requireField s "Package" with
  | .error e => .error e
  | .ok fp =>
    match requireField s "Version" with
    | .error e => .error e
    | .ok fv =>
      match requireField s "Architecture" with
      | .error e => .error e
      | .ok fa =>
        match requireField s "Filename" with
        | .error e => .error e
        | .ok ff => .ok ⟨arch, fp, fv, fa, ff⟩

/-- Embedding of the stanza loop for one architecture's Packages file: an
uncaught exception aborts the whole load, so the first malformed stanza
fails everything after it as well. -/
def loadArch (arch : String) : List Stanza → Except String (List Record)
  | [] => .ok []
  | s :: rest =>
    match loadStanza arch s with
    | .error e => .error e
    | .ok r =>
      match loadArch arch rest with
      | .error e => .error e
      | .ok rs => .ok (r :: rs)

/-! ### Helper lemmas about sorted lists -/

theorem headI_mem {α : Type} [Inhabited α] {l : List α} (h : l ≠ []) : l.headI ∈ l := by
  cases l with
  | nil => exact absurd rfl h
  | cons x xs => exact List.mem_cons_self x xs

theorem headI_cons_tail {α : Type} [Inhabited α] {l : List α} (h : l ≠ []) :
    l.headI :: l.tail = l := by
  cases l with
  | nil => exact absurd rfl h
  | cons x xs => rfl

theorem rel_refl_of_total {α : Type} {r : α → α → Prop} [IsTotal α r] (a : α) : r a a :=
  (IsTotal.total a a).elim id id

theorem sorted_headI_rel {α : Type} [Inhabited α] {r : α → α → Prop} [IsTotal α r]
    {l : List α} (hs : List.Sorted r l) {y : α} (hy : y ∈ l) : r l.headI y := by
  cases l with
  | nil => cases hy
  | cons x xs =>
    rcases List.mem_cons.mp hy with rfl | hy
    · exact rel_refl_of_total y
    · exact List.rel_of_sorted_cons hs y hy

/-- Two sorts of lists that are permutations of each other agree: the sorted
output is canonical for an antisymmetric total order. Python's `sorted` has
the same contract, so this is the key determinism fact behind the pipeline. -/
theorem insertionSort_eq_of_perm {α : Type} {r : α → α → Prop} [DecidableRel r]
    [IsTotal α r] [IsTrans α r] [IsAntisymm α r] {l1 l2 : List α} (h : l1.Perm l2) :
    List.insertionSort r l1 = List.insertionSort r l2 :=
  List.eq_of_perm_of_sorted
    ((List.perm_insertionSort r l1).trans (h.trans (List.perm_insertionSort r l2).symm))
    (List.sorted_insertionSort r l1) (List.sorted_insertionSort r l2)

theorem insertionSort_ne_nil {α : Type} {r : α → α → Prop} [DecidableRel r]
    {l : List α} (h : l ≠ []) : List.insertionSort r l ≠ [] := by
  intro hc
  have hlen := (List.perm_insertionSort r l).length_eq
  rw [hc] at hlen
  exact h (List.length_eq_zero.mp hlen.symm)

/-- The first element of the sorted list only depends on the set of members:
sorting any list with the same members gives the same head. -/
theorem insertionSort_headI_eq {α : Type} [Inhabited α] {r : α → α → Prop} [DecidableRel r]
    [IsTotal α r] [IsTrans α r] [IsAntisymm α r] {l1 l2 : List α}
    (hm : ∀ x, x ∈ l1 ↔ x ∈ l2) (hne : l1 ≠ []) :
    (List.insertionSort r l1).headI = (List.insertionSort r l2).headI := by
  have hne2 : l2 ≠ [] := by
    rcases List.exists_mem_of_ne_nil l1 hne with ⟨x, hx⟩
    exact List.ne_nil_of_mem ((hm x).mp hx)
  have m1 : (List.insertionSort r l1).headI ∈ List.insertionSort r l2 := by
    rw [List.mem_insertionSort]
    exact (hm _).mp ((List.mem_insertionSort r).mp (headI_mem (insertionSort_ne_nil hne)))
  have m2 : (List.insertionSort r l2).headI ∈ List.insertionSort r l1 := by
    rw [List.mem_insertionSort]
    exact (hm _).mpr ((List.mem_insertionSort r).mp (headI_mem (insertionSort_ne_nil hne2)))
  exact antisymm (sorted_headI_rel (List.sorted_insertionSort r l1) m2)
    (sorted_headI_rel (List.sorted_insertionSort r l2) m1)

/-! ### Claim theorems -/

theorem versionsOf_mem_iff {data : List Record} {package v : String} :
    v ∈ versionsOf data package ↔
      ∃ r, r ∈ data ∧ r.package = package ∧ r.version = v := by
  unfold versionsOf
  rw [List.mem_insertionSort, List.mem_dedup, List.mem_map]
  constructor
  · rintro ⟨r, hr, rfl⟩
    rw [List.mem_filter] at hr
    exact ⟨r, hr.1, by simpa using hr.2, rfl⟩
  · rintro ⟨r, hr, hp, hv⟩
    exact ⟨r, List.mem_filter.mpr ⟨hr, by simpa using hp⟩, hv⟩

theorem versionsOf_ne_nil {data : List Record} {package : String}
    (h : ∃ r ∈ data, r.package = package) : versionsOf data package ≠ [] := by
  rcases h with ⟨r, hr, hp⟩
  exact List.ne_nil_of_mem (versionsOf_mem_iff.mpr ⟨r, hr, hp, rfl⟩)

/-- C1: for every package group with at least one record, the version
selector sorts the distinct version strings of the group descending under
the Debian comparator; `newest_version` is the first (greatest) element and
the remaining (older) versions are the tail in the same order; a group with
one distinct version has no older versions; and the version set
`{"1.0", "1.1", "0.9"}` yields newest `"1.1"` with older `["1.0", "0.9"]`. -/
theorem version_selector_sorts_descending :
    (∀ (data : List Record) (package : String), (∃ r ∈ data, r.package = package) →
      (versionsOf data package).Pairwise (fun a b => debCmp a b ≠ .lt)
      ∧ (versionsOf data package).Nodup
      ∧ (∀ v, v ∈ versionsOf data package ↔
          ∃ r, r ∈ data ∧ r.package = package ∧ r.version = v)
      ∧ versionsOf data package =
          newest_version data package :: (versionsOf data package).tail
      ∧ (∀ v ∈ versionsOf data package, debCmp (newest_version data package) v ≠ .lt)
      ∧ older_versions data package =
          String.intercalate " | " (versionsOf data package).tail
      ∧ ((versionsOf data package).length = 1 → older_versions data package = ""))
    ∧ versionsOf
        [⟨"amd64", "f", "1.0", "amd64", "a"⟩, ⟨"amd64", "f", "1.1", "amd64", "b"⟩,
          ⟨"amd64", "f", "0.9", "amd64", "c"⟩] "f" = ["1.1", "1.0", "0.9"] := by
  constructor
  · intro data package h
    refine ⟨?_, ?_, fun v => versionsOf_mem_iff, ?_, ?_, rfl, ?_⟩
    · exact List.sorted_insertionSort verGe _
    · exact (List.perm_insertionSort verGe _).symm.nodup (List.nodup_dedup _)
    · exact (headI_cons_tail (versionsOf_ne_nil h)).symm
    · intro v hv
      exact sorted_headI_rel (List.sorted_insertionSort verGe _) hv
    · intro hlen
      unfold older_versions
      rcases hv : versionsOf data package with _ | ⟨x, _ | ⟨y, t⟩⟩
      · rfl
      · rfl
      · rw [hv] at hlen
        simp at hlen
  · decide

theorem version_selector_sorts_descending_witness :
    (∃ r ∈ [(⟨"amd64", "p", "1.0", "amd64", "x"⟩ : Record)], r.package = "p")
    ∧ ((versionsOf [(⟨"amd64", "p", "1.0", "amd64", "x"⟩ : Record)] "p").length = 1 →
        older_versions [(⟨"amd64", "p", "1.0", "amd64", "x"⟩ : Record)] "p" = "") :=
  ⟨by decide,
    (version_selector_sorts_descending.1
      [(⟨"amd64", "p", "1.0", "amd64", "x"⟩ : Record)] "p" (by decide)).2.2.2.2.2.2⟩

/-- C2: the freshness classifier evaluates its five tier rules in order with
the first match winning, on any finite `diff` including negative values,
producing the description pattern and tier of the first matching rule; at the
boundary `diff = 7200` it gives tier 4 (`hot4`) and at `diff = 7201` tier 3
(`hot3`). -/
theorem freshness_five_tiers :
    (∀ diff : Int, 60 * 24 * 3600 < diff →
      get_time_info diff = (toString (diff / (30 * 24 * 3600)) ++ "+ months ago", "hot1"))
    ∧ (∀ diff : Int, diff ≤ 60 * 24 * 3600 → 2 * 24 * 3600 < diff →
      get_time_info diff = (toString (diff / (24 * 3600)) ++ "+ days ago", "hot2"))
    ∧ (∀ diff : Int, diff ≤ 2 * 24 * 3600 → 2 * 3600 < diff →
      get_time_info diff = (toString (diff / 3600) ++ "+ hours ago", "hot3"))
    ∧ (∀ diff : Int, diff ≤ 2 * 3600 → 2 * 60 < diff →
      get_time_info diff = (toString (diff / 60) ++ "+ minutes ago", "hot4"))
    ∧ (∀ diff : Int, diff ≤ 2 * 60 →
      get_time_info diff = (toString diff ++ " seconds ago", "hot5"))
    ∧ get_time_info 7200 = ("120+ minutes ago", "hot4")
    ∧ get_time_info 7201 = ("2+ hours ago", "hot3") := by
  refine ⟨?_, ?_, ?_, ?_, ?_, by decide, by decide⟩
  · intro diff h1
    unfold get_time_info
    rw [if_pos (by omega)]
  · intro diff h1 h2
    unfold get_time_info
    rw [if_neg (by omega), if_pos (by omega)]
    norm_num
  · intro diff h1 h2
    unfold get_time_info
    rw [if_neg (by omega), if_neg (by omega), if_pos (by omega)]
    norm_num
  · intro diff h1 h2
    unfold get_time_info
    rw [if_neg (by omega), if_neg (by omega), if_neg (by omega), if_pos (by omega)]
    norm_num
  · intro diff h1
    unfold get_time_info
    rw [if_neg (by omega), if_neg (by omega), if_neg (by omega), if_neg (by omega)]

theorem freshness_five_tiers_witness :
    ((-5 : Int) ≤ 2 * 60)
    ∧ get_time_info (-5) = (toString (-5 : Int) ++ " seconds ago", "hot5") :=
  ⟨by decide, freshness_five_tiers.2.2.2.2.1 (-5) (by decide)⟩

theorem delayed_string_ne_empty (s t u : String) : s ++ " " ++ t ++ u ≠ "" := by
  intro h
  have hlen := congrArg String.length h
  simp only [String.length_append] at hlen
  have hone : (" " : String).length = 1 := rfl
  rw [hone] at hlen
  simp at hlen

/-- C3: the delayed-build flag is raised exactly when the newest-artifact
listing is a single entry whose architecture is the distinguished fast one
(`amd64`); a singleton for any other architecture, and any listing of two or
more entries, are never flagged; and in the rendered row the delayed styling
string is nonempty exactly when the flag is raised. -/
theorem delayed_build_heuristic :
    (∀ debs : List (String × String),
      delayedCond debs = true ↔ ∃ path, debs = [("amd64", path)])
    ∧ (∀ arch path, arch ≠ "amd64" → delayedCond [(arch, path)] = false)
    ∧ (∀ e1 e2 : String × String, ∀ rest, delayedCond (e1 :: e2 :: rest) = false)
    ∧ (∀ data now mtime package,
      (renderRow data now mtime package).delayed_build ≠ "" ↔
        delayedCond (newest_debs data package) = true) := by
  have hmain : ∀ debs : List (String × String),
      delayedCond debs = true ↔ ∃ path, debs = [("amd64", path)] := by
    intro debs
    rcases debs with _ | ⟨e, _ | ⟨f, rest⟩⟩
    · simp [delayedCond]
    · simp only [delayedCond, List.length_cons, List.length_nil, List.headI]
      rw [Bool.and_eq_true, beq_iff_eq, beq_iff_eq]
      constructor
      · rintro ⟨-, h⟩
        exact ⟨e.2, by rw [← h]⟩
      · rintro ⟨path, h⟩
        rw [List.cons.injEq] at h
        exact ⟨rfl, by rw [h.1]⟩
    · simp [delayedCond]
  refine ⟨hmain, ?_, ?_, ?_⟩
  · intro arch path harch
    rw [← Bool.not_eq_true, hmain]
    rintro ⟨q, hq⟩
    rw [List.cons.injEq, Prod.mk.injEq] at hq
    exact harch hq.1.1
  · intro e1 e2 rest
    simp [delayedCond]
  · intro data now mtime package
    show (if delayedCond (newest_debs data package) then _ else "") ≠ "" ↔ _
    by_cases hc : delayedCond (newest_debs data package)
    · rw [if_pos hc]
      simp only [hc, iff_true]
      exact delayed_string_ne_empty _ _ _
    · rw [if_neg hc]
      simp [hc]

theorem delayed_build_heuristic_witness :
    ("arm64" : String) ≠ "amd64"
    ∧ delayedCond [("arm64", "pool/a.deb")] = false :=
  ⟨by decide, delayed_build_heuristic.2.1 "arm64" "pool/a.deb" (by decide)⟩

/-- C4: the newest-version artifact listing holds each distinct
`(actual_arch, filename)` pair of the records matching the package and its
newest version exactly once (identical pairs collapse), sorted ascending by
architecture. -/
theorem newest_debs_dedup_sorted (data : List Record) (package : String) :
    (∀ p : String × String, p ∈ newest_debs data package ↔
      ∃ r, r ∈ data ∧ r.package = package ∧ r.version = newest_version data package
        ∧ p = (r.actual_arch, r.filename))
    ∧ (newest_debs data package).Nodup
    ∧ (newest_debs data package).Pairwise (fun p q => strCmp p.1 q.1 ≠ .gt) := by
  refine ⟨?_, ?_, ?_⟩
  · intro p
    unfold newest_debs newest_items
    rw [List.mem_insertionSort, List.mem_dedup, List.mem_map]
    constructor
    · rintro ⟨r, hr, rfl⟩
      rw [List.mem_insertionSort, List.mem_filter, Bool.and_eq_true,
        beq_iff_eq, beq_iff_eq] at hr
      exact ⟨r, hr.1, hr.2.1, hr.2.2, rfl⟩
    · rintro ⟨r, hr, hp, hv, rfl⟩
      exact ⟨r, by
        rw [List.mem_insertionSort, List.mem_filter, Bool.and_eq_true,
          beq_iff_eq, beq_iff_eq]
        exact ⟨hr, hp, hv⟩, rfl⟩
  · exact (List.perm_insertionSort pairLe _).symm.nodup (List.nodup_dedup _)
  · have hs : (newest_debs data package).Pairwise pairLe :=
      List.sorted_insertionSort pairLe _
    refine hs.imp ?_
    intro p q hpq
    unfold pairLe pairCmp at hpq
    rw [ordThen_ne_gt] at hpq
    rcases hpq with hlt | ⟨heq, -⟩
    · rw [hlt]; intro hc; cases hc
    · rw [heq]; intro hc; cases hc

theorem newest_debs_dedup_sorted_witness :
    (newest_debs
      [(⟨"amd64", "p", "1.0", "amd64", "x"⟩ : Record),
        (⟨"arm64", "p", "1.0", "amd64", "x"⟩ : Record)] "p").Nodup
    ∧ newest_debs
      [(⟨"amd64", "p", "1.0", "amd64", "x"⟩ : Record),
        (⟨"arm64", "p", "1.0", "amd64", "x"⟩ : Record)] "p" = [("amd64", "x")] :=
  ⟨(newest_debs_dedup_sorted
      [(⟨"amd64", "p", "1.0", "amd64", "x"⟩ : Record),
        (⟨"arm64", "p", "1.0", "amd64", "x"⟩ : Record)] "p").2.1, by decide⟩

/-- C5: the Debian version comparison backing the sort is a consistent total
order on version strings: it is antisymmetric under swapping its arguments
(`gt` one way is `lt` the other way, `eq` is symmetric) and the strict order
is transitive. (`apt_pkg.version_compare` is external; `debCmp` is its
spec-modelled embedding.) -/
theorem version_compare_total_order :
    (∀ a b : String, debCmp a b = .gt ↔ debCmp b a = .lt)
    ∧ (∀ a b : String, debCmp a b = .eq ↔ debCmp b a = .eq)
    ∧ (∀ a b c : String, debCmp a b = .lt → debCmp b c = .lt → debCmp a c = .lt) :=
  ⟨fun _ _ => debCmp_lawful.gt_iff_lt,
    fun _ _ => ⟨fun h => debCmp_lawful.eq_symm h, fun h => debCmp_lawful.eq_symm h⟩,
    fun _ _ _ h1 h2 => debCmp_lawful.lt_trans h1 h2⟩

theorem version_compare_total_order_witness :
    debCmp "0.9" "1.0" = .lt ∧ debCmp "1.0" "1.1" = .lt ∧ debCmp "0.9" "1.1" = .lt :=
  ⟨by decide, by decide,
    version_compare_total_order.2.2 "0.9" "1.0" "1.1" (by decide) (by decide)⟩

/-- C6 counterexample: two record collections that are permutations of each
other can produce different presentation output. The version strings
`"1.0"` and `"1.00"` are distinct yet compare equal under the Debian
comparator, so which of them becomes the newest version depends on the
order in which the records are presented. -/
theorem order_independence_counterexample :
    ([(⟨"amd64", "p", "1.0", "amd64", "x"⟩ : Record),
        (⟨"amd64", "p", "1.00", "amd64", "y"⟩ : Record)].Perm
      [(⟨"amd64", "p", "1.00", "amd64", "y"⟩ : Record),
        (⟨"amd64", "p", "1.0", "amd64", "x"⟩ : Record)])
    ∧ render_dist
        [(⟨"amd64", "p", "1.0", "amd64", "x"⟩ : Record),
          (⟨"amd64", "p", "1.00", "amd64", "y"⟩ : Record)] 0 (fun _ => 0) ≠
      render_dist
        [(⟨"amd64", "p", "1.00", "amd64", "y"⟩ : Record),
          (⟨"amd64", "p", "1.0", "amd64", "x"⟩ : Record)] 0 (fun _ => 0) :=
  ⟨by decide, by decide⟩

/-- C6 (amended): if no two distinct version strings occurring in the record
collection compare equal under the Debian comparator, then the presentation
output is determined by the record multiset alone: any two permutations of
the records render identically. -/
theorem order_independence_of_no_ties (d1 d2 : List Record) (hperm : d1.Perm d2)
    (hties : ∀ v w : String, v ∈ d1.map Record.version → w ∈ d1.map Record.version →
      debCmp v w = .eq → v = w)
    (now : Int) (mtime : String → Int) :
    render_dist d1 now mtime = render_dist d2 now mtime := by
  haveI : IsAntisymm String (fun a b => debCmp a b = .gt) :=
    ⟨fun a b h1 h2 => by
      have hl := debCmp_lawful.gt_iff_lt.mp h1
      rw [h2] at hl
      cases hl⟩
  have hversions : ∀ p, versionsOf d1 p = versionsOf d2 p := by
    intro p
    unfold versionsOf
    set b1 := ((d1.filter (fun r => r.package == p)).map Record.version).dedup with hb1
    set b2 := ((d2.filter (fun r => r.package == p)).map Record.version).dedup with hb2
    have hb : b1.Perm b2 := ((hperm.filter _).map _).dedup
    have hsperm : (List.insertionSort verGe b1).Perm (List.insertionSort verGe b2) :=
      (List.perm_insertionSort verGe b1).trans
        (hb.trans (List.perm_insertionSort verGe b2).symm)
    have hmem1 : ∀ v ∈ List.insertionSort verGe b1, v ∈ d1.map Record.version := by
      intro v hv
      rw [List.mem_insertionSort, hb1, List.mem_dedup, List.mem_map] at hv
      rcases hv with ⟨r, hr, rfl⟩
      exact List.mem_map.mpr ⟨r, List.mem_of_mem_filter hr, rfl⟩
    have hmem2 : ∀ v ∈ List.insertionSort verGe b2, v ∈ d1.map Record.version := by
      intro v hv
      rw [List.mem_insertionSort, hb2, List.mem_dedup, List.mem_map] at hv
      rcases hv with ⟨r, hr, rfl⟩
      exact (hperm.map Record.version).mem_iff.mpr
        (List.mem_map.mpr ⟨r, List.mem_of_mem_filter hr, rfl⟩)
    have hstrict : ∀ s : List String, List.Sorted verGe s → s.Nodup →
        (∀ v ∈ s, v ∈ d1.map Record.version) →
        s.Pairwise (fun a b => debCmp a b = .gt) := by
      intro s hs hnd hmem
      refine (hs.and hnd).imp_of_mem ?_
      rintro a b ha hb ⟨hge, hne⟩
      rcases hc : debCmp a b with _ | _ | _
      · exact absurd hc hge
      · exact absurd (hties a b (hmem a ha) (hmem b hb) hc) hne
      · rfl
    exact List.eq_of_perm_of_sorted hsperm
      (hstrict _ (List.sorted_insertionSort verGe b1)
        ((List.perm_insertionSort verGe b1).symm.nodup (List.nodup_dedup _)) hmem1)
      (hstrict _ (List.sorted_insertionSort verGe b2)
        ((List.perm_insertionSort verGe b2).symm.nodup (List.nodup_dedup _)) hmem2)
  have hnewest : ∀ p, newest_version d1 p = newest_version d2 p := by
    intro p
    unfold newest_version
    rw [hversions p]
  have hitems : ∀ p, newest_items d1 p = newest_items d2 p := by
    intro p
    unfold newest_items
    rw [hnewest p]
    exact insertionSort_eq_of_perm (hperm.filter _)
  have hdebs : ∀ p, newest_debs d1 p = newest_debs d2 p := by
    intro p
    unfold newest_debs
    rw [hitems p]
  have hpool : ∀ p, pool_dir d1 p = pool_dir d2 p := by
    intro p
    unfold pool_dir
    rw [hitems p]
  have holder : ∀ p, older_versions d1 p = older_versions d2 p := by
    intro p
    unfold older_versions
    rw [hversions p]
  have hpkgs : packagesOf d1 = packagesOf d2 := by
    unfold packagesOf
    exact insertionSort_eq_of_perm ((hperm.map Record.package).dedup)
  have hrow : ∀ p, renderRow d1 now mtime p = renderRow d2 now mtime p := by
    intro p
    unfold renderRow
    rw [hitems p, hdebs p, hpool p, hnewest p, holder p]
  unfold render_dist
  rw [hpkgs]
  exact List.map_congr_left (fun p _ => hrow p)

theorem order_independence_of_no_ties_witness :
    ([(⟨"amd64", "p", "1.0", "amd64", "x"⟩ : Record)].Perm
      [(⟨"amd64", "p", "1.0", "amd64", "x"⟩ : Record)])
    ∧ render_dist [(⟨"amd64", "p", "1.0", "amd64", "x"⟩ : Record)] 0 (fun _ => 0) =
      render_dist [(⟨"amd64", "p", "1.0", "amd64", "x"⟩ : Record)] 0 (fun _ => 0) :=
  ⟨by decide,
    order_independence_of_no_ties _ _ (by decide)
      (fun v w hv hw _ => by
        simp only [List.map_cons, List.map_nil, List.mem_singleton] at hv hw
        rw [hv, hw]) 0 (fun _ => 0)⟩

/-- C7 counterexample: in the run model, each distribution's rendering
captures its own wall-clock sample, so two identical packages with identical
modification times — one per distribution — are classified against different
`now` values within the same run and end up in different freshness tiers. -/
theorem now_captured_per_distribution_counterexample :
    (runModel
        [("a", [(⟨"amd64", "p", "1.0", "amd64", "x"⟩ : Record)]),
          ("b", [(⟨"amd64", "p", "1.0", "amd64", "x"⟩ : Record)])]
        (fun n => 10000000 * n) (fun _ => 0)).map
      (fun pr => pr.2.map Row.time_color) = [["hot5"], ["hot1"]] := by
  decide

/-- C7 (amended): within one distribution all freshness classifications use
one single captured timestamp — the wall-clock sample taken by that
distribution's rendering call before its package loop — namely the `i`-th
clock sample for the `i`-th distribution; distinct distributions of the same
run may observe distinct samples. -/
theorem now_captured_once_per_distribution (dists : List (String × List Record))
    (clock : Nat → Int) (mtime : String → Int) (i : Nat) (pr : String × List Row)
    (h : (runModel dists clock mtime)[i]? = some pr) :
    ∀ row ∈ pr.2,
      (row.diff_desc, row.time_color) = get_time_info (clock i - row.file_ts) := by
  unfold runModel at h
  rw [List.getElem?_map, List.getElem?_enum] at h
  cases hs : (List.insertionSort distLe dists)[i]? with
  | none => rw [hs] at h; cases h
  | some a =>
    rw [hs] at h
    simp only [Option.map_some'] at h
    rw [Option.some_inj] at h
    subst h
    intro row hrow
    unfold render_dist at hrow
    rcases List.mem_map.mp hrow with ⟨pkg, -, rfl⟩
    simp only [renderRow]

theorem now_captured_once_per_distribution_witness :
    ((runModel [("a", [(⟨"amd64", "p", "1.0", "amd64", "x"⟩ : Record)])]
        (fun _ => 5) (fun _ => 2))[0]? =
      some ("a", render_dist [(⟨"amd64", "p", "1.0", "amd64", "x"⟩ : Record)] 5 (fun _ => 2)))
    ∧ (∀ row ∈ (("a", render_dist [(⟨"amd64", "p", "1.0", "amd64", "x"⟩ : Record)] 5
          (fun _ => 2)) : String × List Row).2,
        (row.diff_desc, row.time_color) = get_time_info (5 - row.file_ts)) :=
  ⟨by decide,
    now_captured_once_per_distribution
      [("a", [(⟨"amd64", "p", "1.0", "amd64", "x"⟩ : Record)])]
      (fun _ => 5) (fun _ => 2) 0 _ (by decide)⟩

/-- C8: the pool directory is the artifact path of the first record of the
sorted newest-version record set with its final path segment removed;
deduplicating that record set first does not change the outcome; and
whenever every matching record shares one parent directory the choice of
representative is irrelevant: the pool directory equals that shared parent. -/
theorem pool_dir_representative (data : List Record) (package : String)
    (h : ∃ r ∈ data, r.package = package ∧ r.version = newest_version data package) :
    pool_dir data package = dirname (newest_items data package).headI.filename
    ∧ (newest_items data package).headI ∈ newest_items data package
    ∧ (∀ r : Record, r ∈ newest_items data package ↔
        r ∈ data ∧ r.package = package ∧ r.version = newest_version data package)
    ∧ pool_dir data package = dirname
        ((List.insertionSort recLe
          ((data.filter (fun r => r.package == package &&
            r.version == newest_version data package)).dedup)).headI.filename)
    ∧ (∀ d : String,
        (∀ r ∈ newest_items data package, dirname r.filename = d) →
        pool_dir data package = d) := by
  have hfil : data.filter (fun r => r.package == package &&
      r.version == newest_version data package) ≠ [] := by
    rcases h with ⟨r, hr, hp, hv⟩
    refine List.ne_nil_of_mem (List.mem_filter.mpr ⟨hr, ?_⟩)
    rw [Bool.and_eq_true, beq_iff_eq, beq_iff_eq]
    exact ⟨hp, hv⟩
  have hne : newest_items data package ≠ [] := insertionSort_ne_nil hfil
  have hmem : (newest_items data package).headI ∈ newest_items data package :=
    headI_mem hne
  refine ⟨rfl, hmem, ?_, ?_, ?_⟩
  · intro r
    unfold newest_items
    rw [List.mem_insertionSort, List.mem_filter, Bool.and_eq_true,
      beq_iff_eq, beq_iff_eq]
  · unfold pool_dir newest_items
    exact congrArg (fun rec => dirname (Record.filename rec))
      (insertionSort_headI_eq (fun x => (List.mem_dedup).symm) hfil)
  · intro d hd
    exact hd _ hmem

theorem pool_dir_representative_witness :
    (∃ r ∈ [(⟨"amd64", "p", "1.0", "amd64", "pool/p/a.deb"⟩ : Record)],
      r.package = "p" ∧
        r.version = newest_version [(⟨"amd64", "p", "1.0", "amd64", "pool/p/a.deb"⟩ : Record)] "p")
    ∧ pool_dir [(⟨"amd64", "p", "1.0", "amd64", "pool/p/a.deb"⟩ : Record)] "p" = "pool/p" :=
  ⟨by decide,
    (pool_dir_representative [(⟨"amd64", "p", "1.0", "amd64", "pool/p/a.deb"⟩ : Record)] "p"
      (by decide)).2.2.2.2 "pool/p" (by decide)⟩

theorem loadStanza_ok_fields {arch : String} {s : Stanza} {r : Record}
    (h : loadStanza arch s = .ok r) :
    fieldOf s "Package" = some r.package ∧ fieldOf s "Version" = some r.version ∧
    fieldOf s "Architecture" = some r.actual_arch ∧
    fieldOf s "Filename" = some r.filename ∧ r.source_arch = arch := by
  unfold loadStanza requireField at h
  cases h1 : fieldOf s "Package" <;> rw [h1] at h
  · cases h
  cases h2 : fieldOf s "Version" <;> rw [h2] at h
  · cases h
  cases h3 : fieldOf s "Architecture" <;> rw [h3] at h
  · cases h
  cases h4 : fieldOf s "Filename" <;> rw [h4] at h
  · cases h
  rw [Except.ok.injEq] at h
  subst h
  exact ⟨rfl, rfl, rfl, rfl, rfl⟩

theorem loadStanza_error_of_missing {arch : String} {s : Stanza}
    (h : fieldOf s "Package" = none ∨ fieldOf s "Version" = none ∨
      fieldOf s "Architecture" = none ∨ fieldOf s "Filename" = none) :
    ∃ e, loadStanza arch s = .error e := by
  cases h1 : fieldOf s "Package"
  · exact ⟨"Package", by unfold loadStanza requireField; rw [h1]⟩
  cases h2 : fieldOf s "Version"
  · exact ⟨"Version", by unfold loadStanza requireField; rw [h1, h2]⟩
  cases h3 : fieldOf s "Architecture"
  · exact ⟨"Architecture", by unfold loadStanza requireField; rw [h1, h2, h3]⟩
  cases h4 : fieldOf s "Filename"
  · exact ⟨"Filename", by unfold loadStanza requireField; rw [h1, h2, h3, h4]⟩
  rcases h with h | h | h | h <;> simp_all

theorem loadArch_error_of_missing (arch : String) :
    ∀ stanzas : List Stanza,
      (∃ s ∈ stanzas, fieldOf s "Package" = none ∨ fieldOf s "Version" = none ∨
        fieldOf s "Architecture" = none ∨ fieldOf s "Filename" = none) →
      ∃ e, loadArch arch stanzas = .error e
  | [], h => by
    rcases h with ⟨s, hmem, -⟩
    cases hmem
  | s :: rest, h => by
    cases hls : loadStanza arch s with
    | error e => exact ⟨e, by unfold loadArch; rw [hls]⟩
    | ok r =>
      rcases h with ⟨s0, hmem, hmiss⟩
      rcases List.mem_cons.mp hmem with rfl | hmem2
      · rcases @loadStanza_error_of_missing arch _ hmiss with ⟨e, he⟩
        rw [hls] at he
        cases he
      · rcases loadArch_error_of_missing arch rest ⟨s0, hmem2, hmiss⟩ with ⟨e, he⟩
        exact ⟨e, by unfold loadArch; rw [hls, he]⟩

theorem loadArch_ok_fields (arch : String) :
    ∀ (stanzas : List Stanza) (recs : List Record), loadArch arch stanzas = .ok recs →
      recs.length = stanzas.length ∧
      (∀ (i : Nat) (r : Record) (s : Stanza), recs[i]? = some r → stanzas[i]? = some s →
        fieldOf s "Package" = some r.package ∧ fieldOf s "Version" = some r.version ∧
        fieldOf s "Architecture" = some r.actual_arch ∧
        fieldOf s "Filename" = some r.filename ∧ r.source_arch = arch)
  | [], recs, h => by
    unfold loadArch at h
    rw [Except.ok.injEq] at h
    subst h
    refine ⟨rfl, ?_⟩
    intro i r s h1 h2
    simp at h1
  | s :: rest, recs, h => by
    unfold loadArch at h
    cases hls : loadStanza arch s <;> rw [hls] at h
    · cases h
    cases hla : loadArch arch rest <;> rw [hla] at h
    · cases h
    rw [Except.ok.injEq] at h
    subst h
    rcases loadArch_ok_fields arch rest _ hla with ⟨ihlen, ihidx⟩
    refine ⟨by simp [ihlen], ?_⟩
    intro i r0 s0 h1 h2
    cases i with
    | zero =>
      rw [List.getElem?_cons_zero, Option.some_inj] at h1 h2
      subst h1
      subst h2
      exact loadStanza_ok_fields hls
    | succ i =>
      rw [List.getElem?_cons_succ] at h1 h2
      exact ihidx i r0 s0 h1 h2

/-- C9: a stanza missing any of the four required fields makes the load fail
with an error — the whole architecture load aborts — and conversely a
successful load yields exactly one record per stanza whose four fields were
all present and were copied into the record, so no partial record is ever
constructed or aggregated. -/
theorem malformed_stanza_fails (arch : String) :
    (∀ (stanzas : List Stanza) (recs : List Record), loadArch arch stanzas = .ok recs →
      recs.length = stanzas.length ∧
      (∀ (i : Nat) (r : Record) (s : Stanza), recs[i]? = some r → stanzas[i]? = some s →
        fieldOf s "Package" = some r.package ∧ fieldOf s "Version" = some r.version ∧
        fieldOf s "Architecture" = some r.actual_arch ∧
        fieldOf s "Filename" = some r.filename ∧ r.source_arch = arch))
    ∧ (∀ stanzas : List Stanza,
      (∃ s ∈ stanzas, fieldOf s "Package" = none ∨ fieldOf s "Version" = none ∨
        fieldOf s "Architecture" = none ∨ fieldOf s "Filename" = none) →
      ∃ e, loadArch arch stanzas = .error e) :=
  ⟨loadArch_ok_fields arch, loadArch_error_of_missing arch⟩

theorem malformed_stanza_fails_witness :
    (∃ s ∈ [([("Package", "p"), ("Version", "1.0"), ("Architecture", "amd64")] : Stanza)],
      fieldOf s "Package" = none ∨ fieldOf s "Version" = none ∨
        fieldOf s "Architecture" = none ∨ fieldOf s "Filename" = none)
    ∧ ∃ e, loadArch "amd64"
        [([("Package", "p"), ("Version", "1.0"), ("Architecture", "amd64")] : Stanza)] =
        .error e :=
  ⟨by decide,
    (malformed_stanza_fails "amd64").2
      [([("Package", "p"), ("Version", "1.0"), ("Architecture", "amd64")] : Stanza)]
      (by decide)⟩

/-- C10: all freshness output of a package's row — the raw timestamp shown in
the tooltip, the age description and the tier color — is derived from the
modification time of the single representative artifact, the filename of the
first record of the sorted newest-version record list; the modification
times of every other artifact are never consulted, so two environments
agreeing on that one file render the package identically. -/
theorem freshness_single_representative (data : List Record) (now : Int)
    (mtime1 mtime2 : String → Int) (package : String)
    (h : mtime1 ((newest_items data package).headI.filename) =
      mtime2 ((newest_items data package).headI.filename)) :
    (renderRow data now mtime1 package).file_ts =
      mtime1 ((newest_items data package).headI.filename)
    ∧ renderRow data now mtime1 package = renderRow data now mtime2 package := by
  refine ⟨rfl, ?_⟩
  simp only [renderRow]
  rw [h]

theorem freshness_single_representative_witness :
    ((fun f : String => (7 : Int)) "x" = (fun _ : String => (7 : Int)) "x")
    ∧ renderRow [(⟨"amd64", "p", "1.0", "amd64", "x"⟩ : Record)] 0 (fun _ => 7) "p" =
      renderRow [(⟨"amd64", "p", "1.0", "amd64", "x"⟩ : Record)] 0 (fun _ => 7) "p" :=
  ⟨rfl,
    (freshness_single_representative [(⟨"amd64", "p", "1.0", "amd64", "x"⟩ : Record)] 0
      (fun _ => 7) (fun _ => 7) "p" rfl).2⟩
